import Mathlib

/-!
Verification of the enrichment-and-ranking pipeline of the MVC_Backend
repository, against its natural-language specification.

Numeric model: Python floats are modelled as exact rationals (ℚ).  The one
external numeric primitive, `math.log (1 + n)`, is modelled as an explicit
function parameter `lg : ℕ → ℚ` (the code only ever applies the logarithm to
`1 + num_reviews` with `num_reviews : ℕ`); where a theorem needs a concrete
fact about it we hypothesise exactly what the real logarithm satisfies
(for instance `lg 0 = 0`, since `math.log 1 = 0` holds exactly even in
floating point).

Source files embedded below:
  - `src/services/sentiment.py` and `src/sentiment_enrichment.py`
    (review sentiment aggregation, identical arithmetic in both);
  - `src/app/routers/courses.py` and `src/routers/courses.py` (search ranking);
  - `src/app/routers/categories.py` (category browse listing);
  - `src/utils/keyword_queue.py` (keyword queue and search-demand records);
  - `src/utils/category_tagger.py` and `src/app/utils/category_tagger.py`
    (the two category-retagging implementations);
  - `src/app/services/notification_service.py` and
    `src/services/notification_service.py` (demand-driven notifications).
-/

/-! ## Configuration (src/app/core/config.py, src/core/config.py)

`ALPHA = 0.7`, `BETA = 0.2`, `TAG_THRESHOLD = 0.2`, `PSEUDOCOUNT = 10`
are the default values of the `Settings` class, shared by both variants. -/

def ALPHA : ℚ := 7 / 10

def BETA : ℚ := 1 / 5

def TAG_THRESHOLD : ℚ := 1 / 5

def PSEUDOCOUNT : ℕ := 10

/-! ## Python rounding

`round(x, 4)` in Python rounds to 4 decimal places with ties going to the
even integer (banker's rounding).  We model it exactly on ℚ. -/

/-- Round a rational to the nearest integer, ties to even (Python `round`). -/
def roundHalfEven (x : ℚ) : ℤ :=
  let n := ⌊x⌋
  let r := x - n
  if r < 1 / 2 then n
  else if 1 / 2 < r then n + 1
  else if n % 2 = 0 then n else n + 1

/-- Python `round(x, 4)`. -/
def round4 (x : ℚ) : ℚ := (roundHalfEven (x * 10000) : ℚ) / 10000

/-! ## Review sentiment aggregation

Embeds `aggregate_course_metrics` of `src/services/sentiment.py`
(lines 39-63), whose arithmetic is identical to `aggregate` of
`src/sentiment_enrichment.py` (lines 67-96).  A review document carries an
optional `sentiment_score` (absent until scored); the aggregation pass reads
every course, computes the corpus-wide mean of all scored reviews, and then
writes `num_reviews`, `avg_sentiment` and `smoothed_sentiment` per course. -/

structure ReviewDoc where
  review_id : ℕ
  text : String
  sentiment_score : Option ℚ
deriving Repr, DecidableEq

structure CourseDoc where
  course_id : ℕ
  reviews : List ReviewDoc
deriving Repr, DecidableEq

/-- The sentiment scores present on a course's reviews, in review order
(`[r["sentiment_score"] for r in course.get("reviews", []) if "sentiment_score" in r]`). -/
def scoredScores (c : CourseDoc) : List ℚ :=
  c.reviews.filterMap (fun r => r.sentiment_score)

/-- Every scored review sentiment in the corpus (the `all_scores` list). -/
def allScores (courses : List CourseDoc) : List ℚ :=
  (courses.map scoredScores).flatten

/-- `global_mean = sum(all_scores) / len(all_scores) if all_scores else 0.0`. -/
def global_mean (courses : List CourseDoc) : ℚ :=
  let all := allScores courses
  if all.isEmpty then 0 else all.sum / all.length

structure SentimentMetrics where
  num_reviews : ℕ
  avg_sentiment : ℚ
  smoothed_sentiment : ℚ
deriving Repr, DecidableEq

/-- Per-course body of the aggregation loop: given the fresh `global_mean`,
compute the three derived fields for one course.  Mirrors lines 49-52 of
`src/services/sentiment.py`:
`avg = sum(scores) / n if n else 0.0` and
`smooth = ((C * gm) + sum(scores)) / (C + n) if (C + n) else gm`. -/
def course_metrics (gm : ℚ) (c : CourseDoc) : SentimentMetrics :=
  let scores := scoredScores c
  let n := scores.length
  { num_reviews := n
    avg_sentiment := if n ≠ 0 then scores.sum / n else 0
    smoothed_sentiment :=
      if PSEUDOCOUNT + n ≠ 0 then
        ((PSEUDOCOUNT : ℚ) * gm + scores.sum) / ((PSEUDOCOUNT : ℚ) + n)
      else gm }

/-- The whole `aggregate_course_metrics` pass: compute `global_mean` fresh,
then the update written for every course (the `UpdateOne` list keyed by
`course_id`). -/
def aggregate_course_metrics (courses : List CourseDoc) : List (ℕ × SentimentMetrics) :=
  let gm := global_mean courses
  courses.map (fun c => (c.course_id, course_metrics gm c))

/-- The zero-guard on `PSEUDOCOUNT + n` never fires, so `smoothed_sentiment`
is always the shrinkage formula with `C = 10`. -/
theorem course_metrics_smoothed (gm : ℚ) (c : CourseDoc) :
    (course_metrics gm c).smoothed_sentiment
      = (10 * gm + (scoredScores c).sum) / (10 + (scoredScores c).length) := by
  have h : PSEUDOCOUNT + (scoredScores c).length ≠ 0 := by
    simp [PSEUDOCOUNT]
  simp only [course_metrics, if_pos h, PSEUDOCOUNT]
  norm_num

theorem course_metrics_avg (gm : ℚ) (c : CourseDoc) :
    (course_metrics gm c).avg_sentiment
      = if (scoredScores c).length = 0 then 0
        else (scoredScores c).sum / (scoredScores c).length := by
  simp only [course_metrics]
  split_ifs with h1 h2 <;> simp_all

theorem course_metrics_num (gm : ℚ) (c : CourseDoc) :
    (course_metrics gm c).num_reviews = (scoredScores c).length := rfl

/-- C1: `aggregate_course_metrics` computes `global_mean` on every run as the
arithmetic mean of all scored review sentiments across the whole corpus (0.0
when no scored review exists anywhere), and persists for every course with
`n` scored reviews and sum `S`: `num_reviews = n`, `avg_sentiment = S / n`
(0.0 when `n = 0`), and `smoothed_sentiment = (C * global_mean + S) / (C + n)`
with the default pseudocount `C = 10`; in particular a course with zero
scored reviews gets `smoothed_sentiment = global_mean`. -/
theorem aggregate_course_metrics_spec (courses : List CourseDoc) (c : CourseDoc)
    (hc : c ∈ courses) :
    (allScores courses = [] → global_mean courses = 0)
    ∧ (allScores courses ≠ [] →
        global_mean courses = (allScores courses).sum / (allScores courses).length)
    ∧ (c.course_id,
        { num_reviews := (scoredScores c).length
          avg_sentiment :=
            if (scoredScores c).length = 0 then 0
            else (scoredScores c).sum / (scoredScores c).length
          smoothed_sentiment :=
            (10 * global_mean courses + (scoredScores c).sum)
              / (10 + (scoredScores c).length) : SentimentMetrics })
        ∈ aggregate_course_metrics courses
    ∧ ((scoredScores c).length = 0 →
        (course_metrics (global_mean courses) c).smoothed_sentiment
          = global_mean courses) := by
  refine ⟨?_, ?_, ?_, ?_⟩
  · intro h
    simp [global_mean, h]
  · intro h
    have he : (allScores courses).isEmpty = false := by
      simpa [List.isEmpty_iff] using h
    simp [global_mean, he]
  · simp only [aggregate_course_metrics, List.mem_map]
    refine ⟨c, hc, ?_⟩
    have hm : course_metrics (global_mean courses) c =
        { num_reviews := (scoredScores c).length
          avg_sentiment :=
            if (scoredScores c).length = 0 then 0
            else (scoredScores c).sum / (scoredScores c).length
          smoothed_sentiment :=
            (10 * global_mean courses + (scoredScores c).sum)
              / (10 + (scoredScores c).length) } := by
      have h1 := course_metrics_smoothed (global_mean courses) c
      have h2 := course_metrics_avg (global_mean courses) c
      have h3 := course_metrics_num (global_mean courses) c
      cases hcm : course_metrics (global_mean courses) c
      simp_all
    rw [hm]
  · intro h
    have hs : scoredScores c = [] := List.length_eq_zero.mp h
    rw [course_metrics_smoothed]
    rw [hs]
    norm_num

/-- Witness for C1 at a concrete one-course corpus with no reviews. -/
theorem aggregate_course_metrics_spec_witness :
    (course_metrics (global_mean [⟨1, []⟩]) ⟨1, []⟩).smoothed_sentiment
      = global_mean [⟨1, []⟩] :=
  (aggregate_course_metrics_spec [⟨1, []⟩] ⟨1, []⟩ (by simp)).2.2.2
    (by simp [scoredScores])

/-- C8: after aggregation, `smoothed_sentiment` lies in the closed interval
between `avg_sentiment` and the global mean, and as `num_reviews` grows with
`avg_sentiment` held fixed at `a` (so a course with `n` scored reviews has
review sum `n * a`), `smoothed_sentiment` approaches `avg_sentiment`. -/
theorem smoothed_sentiment_between_global_and_avg (gm a ε : ℚ) (c : CourseDoc)
    (hε : 0 < ε) :
    (min (course_metrics gm c).avg_sentiment gm
        ≤ (course_metrics gm c).smoothed_sentiment
      ∧ (course_metrics gm c).smoothed_sentiment
        ≤ max (course_metrics gm c).avg_sentiment gm)
    ∧ ∃ N : ℕ, ∀ n : ℕ, N ≤ n → ∀ c2 : CourseDoc,
        (scoredScores c2).length = n → (scoredScores c2).sum = n * a →
        |(course_metrics gm c2).smoothed_sentiment - a| < ε := by
  constructor
  · rw [course_metrics_smoothed, course_metrics_avg]
    rcases Nat.eq_zero_or_pos (scoredScores c).length with h0 | hpos
    · rw [if_pos h0, h0]
      have hs : scoredScores c = [] := List.length_eq_zero.mp h0
      rw [hs]
      norm_num
    · have hne : (scoredScores c).length ≠ 0 := Nat.pos_iff_ne_zero.mp hpos
      rw [if_neg hne]
      set n : ℚ := ((scoredScores c).length : ℚ) with hn
      set S : ℚ := (scoredScores c).sum with hS
      have hnpos : (0 : ℚ) < n := by
        rw [hn]
        exact_mod_cast hpos
      have hD : (0 : ℚ) < 10 + n := by linarith
      have hSA : S = n * (S / n) := by
        field_simp
      constructor
      · rw [le_div_iff hD]
        nlinarith [mul_le_mul_of_nonneg_left (min_le_right (S / n) gm)
            (show (0:ℚ) ≤ 10 by norm_num),
          mul_le_mul_of_nonneg_left (min_le_left (S / n) gm) hnpos.le]
      · rw [div_le_iff hD]
        nlinarith [mul_le_mul_of_nonneg_left (le_max_right (S / n) gm)
            (show (0:ℚ) ≤ 10 by norm_num),
          mul_le_mul_of_nonneg_left (le_max_left (S / n) gm) hnpos.le]
  · refine ⟨(⌈10 * |gm - a| / ε⌉).toNat + 1, ?_⟩
    intro n hn c2 hlen hsum
    have hD : (0 : ℚ) < 10 + (n : ℚ) := by positivity
    have hval : (course_metrics gm c2).smoothed_sentiment - a
        = (10 * (gm - a)) / (10 + (n : ℚ)) := by
      rw [course_metrics_smoothed, hlen, hsum]
      field_simp
      ring
    rw [hval, abs_div, abs_of_pos hD,
      show |10 * (gm - a)| = 10 * |gm - a| by rw [abs_mul]; norm_num]
    rw [div_lt_iff hD]
    have hx : (0 : ℚ) ≤ 10 * |gm - a| / ε := by positivity
    have hceil : (10 : ℚ) * |gm - a| / ε ≤ ((⌈10 * |gm - a| / ε⌉).toNat : ℚ) := by
      have h1 : ((⌈10 * |gm - a| / ε⌉).toNat : ℤ) = ⌈10 * |gm - a| / ε⌉ :=
        Int.toNat_of_nonneg (Int.ceil_nonneg hx)
      have h2 := Int.le_ceil (10 * |gm - a| / ε)
      have h3 : (((⌈10 * |gm - a| / ε⌉).toNat : ℕ) : ℚ)
          = ((⌈10 * |gm - a| / ε⌉ : ℤ) : ℚ) := by
        exact_mod_cast congrArg (fun z : ℤ => (z : ℚ)) h1
      rw [h3]
      exact_mod_cast h2
    have hNn : ((⌈10 * |gm - a| / ε⌉).toNat + 1 : ℚ) ≤ (n : ℚ) := by
      exact_mod_cast Nat.cast_le.mpr hn
    have hmul : 10 * |gm - a| = ε * (10 * |gm - a| / ε) := by
      field_simp
    have hstep : ε * (10 * |gm - a| / ε) < ε * ((⌈10 * |gm - a| / ε⌉).toNat + 1 : ℚ) := by
      apply mul_lt_mul_of_pos_left _ hε
      linarith
    have hstep2 : ε * ((⌈10 * |gm - a| / ε⌉).toNat + 1 : ℚ) ≤ ε * (n : ℚ) :=
      mul_le_mul_of_nonneg_left hNn hε.le
    nlinarith

/-- Witness for C8 at a concrete course and parameters. -/
theorem smoothed_sentiment_between_global_and_avg_witness :
    min (course_metrics 1 ⟨1, []⟩).avg_sentiment 1
      ≤ (course_metrics 1 ⟨1, []⟩).smoothed_sentiment :=
  ((smoothed_sentiment_between_global_and_avg 1 0 1 ⟨1, []⟩ (by norm_num)).1).1

/-! ## Search ranking

Embeds `search_courses` of `src/app/routers/courses.py` (lines 13-68); the
older `src/routers/courses.py` computes the same scores (its zero-result
branch differs only in not enqueueing the keyword).  A candidate document is
the Mongo projection `{score, course_id, title, smoothed_sentiment,
num_reviews}`; `smoothed_sentiment` and `num_reviews` may be missing or null
(`Option`), and the route coerces them with `or 0.0` / `or 0`. -/

structure SearchDoc where
  course_id : ℕ
  title : String
  score : ℚ
  smoothed_sentiment : Option ℚ
  num_reviews : Option ℕ
deriving Repr, DecidableEq

/-- The response model (`CourseSummary` in `src/app/models/course.py`): all
rational fields are stored already rounded to 4 decimal places, exactly as
the route constructs them. -/
structure CourseSummary where
  course_id : ℕ
  title : String
  ranking_score : ℚ
  text_norm : ℚ
  sent_norm : ℚ
  pop_weight : ℚ
  num_reviews : ℕ
  smoothed_sentiment : ℚ
deriving Repr, DecidableEq

/-- Python `max` over a non-empty list (we return 0 on `[]`, a case the code
never reaches because the empty-candidate branch returns first). -/
def listMax : List ℚ → ℚ
  | [] => 0
  | [x] => x
  | x :: y :: xs => max x (listMax (y :: xs))

/-- `max_score = max(d.get("score", 0) for d in docs) or 1.0`: a falsy
(zero) maximum falls back to 1.0. -/
def max_score_or_one (docs : List SearchDoc) : ℚ :=
  let m := listMax (docs.map (fun d => d.score))
  if m = 0 then 1 else m

/-- The exact (unrounded) composite ranking of one candidate, given the
normalizing divisor `M` and the popularity signal `lg n` standing for
`math.log(1 + n)`. -/
def exact_ranking (lg : ℕ → ℚ) (M : ℚ) (d : SearchDoc) : ℚ :=
  ALPHA * (d.score / M)
    + (1 - ALPHA) * ((d.smoothed_sentiment.getD 0 + 1) / 2)
    + BETA * lg (d.num_reviews.getD 0)

/-- The loop body building one `CourseSummary` (lines 49-65 of
`src/app/routers/courses.py`): `text_norm = d["score"] / max_score`,
`sent = float(d.get("smoothed_sentiment") or 0.0)`,
`sent_norm = (sent + 1.0) / 2.0`, `n = int(d.get("num_reviews") or 0)`,
`pop_weight = math.log(1 + n)`,
`ranking = ALPHA * text_norm + (1 - ALPHA) * sent_norm + BETA * pop_weight`,
every displayed field rounded to 4 decimal places. -/
def mk_summary (lg : ℕ → ℚ) (M : ℚ) (d : SearchDoc) : CourseSummary :=
  let text_norm := d.score / M
  let sent := d.smoothed_sentiment.getD 0
  let sent_norm := (sent + 1) / 2
  let n := d.num_reviews.getD 0
  let pop_weight := lg n
  let ranking := ALPHA * text_norm + (1 - ALPHA) * sent_norm + BETA * pop_weight
  { course_id := d.course_id
    title := d.title
    ranking_score := round4 ranking
    text_norm := round4 text_norm
    sent_norm := round4 sent_norm
    pop_weight := round4 pop_weight
    num_reviews := n
    smoothed_sentiment := round4 sent }

/-- Ordering used by `results.sort(key=lambda c: c.ranking_score,
reverse=True)`: descending by the stored (rounded) ranking score.  A stable
descending sort is exactly insertion sort with this non-strict relation. -/
def rankedBefore (a b : CourseSummary) : Prop :=
  b.ranking_score ≤ a.ranking_score

instance : DecidableRel rankedBefore :=
  fun a b => inferInstanceAs (Decidable (b.ranking_score ≤ a.ranking_score))

instance : IsTotal CourseSummary rankedBefore :=
  ⟨fun a b => le_total b.ranking_score a.ranking_score⟩

instance : IsTrans CourseSummary rankedBefore :=
  ⟨fun _ _ _ h1 h2 => le_trans h2 h1⟩

/-- The non-empty-candidate tail of the search route: build all summaries,
sort by composite score descending, return the first `top_k`. -/
def rank_results (lg : ℕ → ℚ) (top_k : ℕ) (docs : List SearchDoc) : List CourseSummary :=
  let M := max_score_or_one docs
  let results := docs.map (mk_summary lg M)
  (results.insertionSort rankedBefore).take top_k

/-! ## Keyword queue, search-demand records and notifications
(src/utils/keyword_queue.py, notification_service.py)

A single store models the three Mongo collections the pipeline mutates:
`keyword_queue`, `search_requests` and `users`.  Fresh `_id`s for inserted
requests and notifications come from counters. -/

structure KeywordEntry where
  keyword : String
  scraped : Bool
deriving Repr, DecidableEq

structure SearchRequest where
  rid : ℕ
  user_id : ℕ
  keyword : String
  notified : Bool
deriving Repr, DecidableEq

structure NoteDoc where
  nid : ℕ
  message : String
  read : Bool
  sent : Bool
deriving Repr, DecidableEq

structure UserDoc where
  uid : ℕ
  notifications : List NoteDoc
deriving Repr, DecidableEq

structure Store where
  kw_queue : List KeywordEntry
  requests : List SearchRequest
  users : List UserDoc
  next_rid : ℕ
  next_nid : ℕ
deriving Repr, DecidableEq

/-- `enqueue` of `src/utils/keyword_queue.py` (lines 35-43): upsert keyed on
the keyword, inserting `{keyword, scraped: False}` only when absent. -/
def enqueue (kw : String) (st : Store) : Store :=
  if ∃ e ∈ st.kw_queue, e.keyword = kw then st
  else { st with kw_queue := st.kw_queue ++ [⟨kw, false⟩] }

/-- `add_request` of `src/utils/keyword_queue.py` (lines 45-60): insert a
`notified: False` demand record for `(user, keyword)` unless an un-notified
record for that pair already exists. -/
def add_request (uid : ℕ) (kw : String) (st : Store) : Store :=
  if ∃ r ∈ st.requests, r.user_id = uid ∧ r.keyword = kw ∧ r.notified = false then st
  else
    { st with
      requests := st.requests ++ [⟨st.next_rid, uid, kw, false⟩]
      next_rid := st.next_rid + 1 }

/-- The whole search route, given the text-index query result `docs` for
`query`: on zero candidates enqueue the keyword, record demand when a user
is present, and return the empty list; otherwise rank the candidates
(the store is untouched on that path). -/
def search_courses (lg : ℕ → ℚ) (top_k : ℕ) (current_user : Option ℕ)
    (query : String) (docs : List SearchDoc) (st : Store) :
    Store × List CourseSummary :=
  if docs.isEmpty then
    let st1 := enqueue query st
    let st2 :=
      match current_user with
      | some uid => add_request uid query st1
      | none => st1
    (st2, [])
  else (st, rank_results lg top_k docs)

/-! ## Category browse listing (src/app/routers/categories.py, lines 23-50)

No free-text query: `text_norm` is fixed at 0 and the score degenerates to
`(1 - ALPHA) * sent_norm + BETA * pop_weight`.  The projection here uses
`doc.get("smoothed_sentiment", 0.0)` / `doc.get("num_reviews", 0)`. -/

structure CategoryRow where
  course_id : ℕ
  title : String
  smoothed_sentiment : Option ℚ
  num_reviews : Option ℕ
deriving Repr, DecidableEq

def category_summary (lg : ℕ → ℚ) (row : CategoryRow) : CourseSummary :=
  let sent := row.smoothed_sentiment.getD 0
  let sent_norm := (sent + 1) / 2
  let n := row.num_reviews.getD 0
  let pop_weight := lg n
  let score := (1 - ALPHA) * sent_norm + BETA * pop_weight
  { course_id := row.course_id
    title := row.title
    ranking_score := round4 score
    text_norm := 0
    sent_norm := round4 sent_norm
    pop_weight := round4 pop_weight
    num_reviews := n
    smoothed_sentiment := round4 sent }

def get_courses_by_category (lg : ℕ → ℚ) (rows : List CategoryRow) :
    List CourseSummary :=
  (rows.map (category_summary lg)).insertionSort rankedBefore

/-! ### Lemmas about the ranking computation -/

theorem le_listMax {l : List ℚ} {x : ℚ} (hx : x ∈ l) : x ≤ listMax l := by
  induction l with
  | nil => cases hx
  | cons a t ih =>
    cases t with
    | nil =>
      rcases List.mem_singleton.mp hx with rfl
      exact le_refl x
    | cons b t2 =>
      rcases List.mem_cons.mp hx with rfl | hmem
      · exact le_max_left _ _
      · exact le_trans (ih hmem) (le_max_right _ _)

theorem rank_results_sorted (lg : ℕ → ℚ) (top_k : ℕ) (docs : List SearchDoc) :
    List.Sorted rankedBefore (rank_results lg top_k docs) := by
  unfold rank_results
  exact List.Pairwise.take (List.sorted_insertionSort rankedBefore _)

theorem rank_results_length (lg : ℕ → ℚ) (top_k : ℕ) (docs : List SearchDoc) :
    (rank_results lg top_k docs).length = min top_k docs.length := by
  unfold rank_results
  rw [List.length_take, (List.perm_insertionSort rankedBefore _).length_eq,
    List.length_map]

theorem get_courses_by_category_sorted (lg : ℕ → ℚ) (rows : List CategoryRow) :
    List.Sorted rankedBefore (get_courses_by_category lg rows) :=
  List.sorted_insertionSort rankedBefore _

theorem roundHalfEven_le (x : ℚ) : roundHalfEven x ≤ ⌊x⌋ + 1 := by
  simp only [roundHalfEven]
  split_ifs <;> omega

theorem le_roundHalfEven (x : ℚ) : ⌊x⌋ ≤ roundHalfEven x := by
  simp only [roundHalfEven]
  split_ifs <;> omega

theorem roundHalfEven_mono {x y : ℚ} (h : x ≤ y) :
    roundHalfEven x ≤ roundHalfEven y := by
  have hf : ⌊x⌋ ≤ ⌊y⌋ := Int.floor_le_floor h
  rcases lt_or_eq_of_le hf with hlt | heq
  · calc roundHalfEven x ≤ ⌊x⌋ + 1 := roundHalfEven_le x
      _ ≤ ⌊y⌋ := by omega
      _ ≤ roundHalfEven y := le_roundHalfEven y
  · have hr : x - (⌊x⌋ : ℚ) ≤ y - (⌊y⌋ : ℚ) := by
      rw [← heq]
      linarith
    simp only [roundHalfEven, ← heq]
    split_ifs <;> first | omega | (exfalso; linarith)
  

theorem round4_mono {x y : ℚ} (h : x ≤ y) : round4 x ≤ round4 y := by
  unfold round4
  have h2 : x * 10000 ≤ y * 10000 :=
    mul_le_mul_of_nonneg_right h (by norm_num)
  have h3 := roundHalfEven_mono h2
  have h4 : ((roundHalfEven (x * 10000) : ℤ) : ℚ)
      ≤ ((roundHalfEven (y * 10000) : ℤ) : ℚ) := by
    exact_mod_cast h3
  linarith

/-- C2: for every non-empty candidate list whose maximum raw score is
nonzero, the search route normalizes `text_norm = score / max(candidate
scores)`, `sent_norm = (smoothed_sentiment + 1) / 2`,
`pop_weight = log(1 + num_reviews)` (the `lg` parameter), combines them as
`ranking = ALPHA * text_norm + (1 - ALPHA) * sent_norm + BETA * pop_weight`
with the defaults `ALPHA = 0.7`, `BETA = 0.2`, and returns the summaries
sorted by ranking score descending, truncated to `top_k`; a category-browse
listing has `text_norm = 0` and score
`(1 - ALPHA) * sent_norm + BETA * pop_weight`, sorted the same way. -/
theorem search_ranking_formula_spec (lg : ℕ → ℚ) (top_k : ℕ)
    (docs : List SearchDoc) (st : Store) (q : String)
    (hne : docs ≠ [])
    (hmax : listMax (docs.map (fun d => d.score)) ≠ 0) :
    ALPHA = 7 / 10
    ∧ BETA = 1 / 5
    ∧ max_score_or_one docs = listMax (docs.map (fun d => d.score))
    ∧ search_courses lg top_k none q docs st = (st, rank_results lg top_k docs)
    ∧ rank_results lg top_k docs
        = ((docs.map (mk_summary lg (max_score_or_one docs))).insertionSort
            rankedBefore).take top_k
    ∧ (∀ d ∈ docs,
        mk_summary lg (max_score_or_one docs) d
          = { course_id := d.course_id
              title := d.title
              ranking_score := round4 (ALPHA * (d.score / max_score_or_one docs)
                + (1 - ALPHA) * ((d.smoothed_sentiment.getD 0 + 1) / 2)
                + BETA * lg (d.num_reviews.getD 0))
              text_norm := round4 (d.score / max_score_or_one docs)
              sent_norm := round4 ((d.smoothed_sentiment.getD 0 + 1) / 2)
              pop_weight := round4 (lg (d.num_reviews.getD 0))
              num_reviews := d.num_reviews.getD 0
              smoothed_sentiment := round4 (d.smoothed_sentiment.getD 0) })
    ∧ List.Sorted rankedBefore (rank_results lg top_k docs)
    ∧ (rank_results lg top_k docs).length = min top_k docs.length
    ∧ (∀ rows : List CategoryRow, ∀ row ∈ rows,
        (category_summary lg row).text_norm = 0
        ∧ (category_summary lg row).ranking_score
          = round4 ((1 - ALPHA) * ((row.smoothed_sentiment.getD 0 + 1) / 2)
            + BETA * lg (row.num_reviews.getD 0)))
    ∧ (∀ rows : List CategoryRow,
        List.Sorted rankedBefore (get_courses_by_category lg rows)) := by
  refine ⟨rfl, rfl, ?_, ?_, rfl, ?_, rank_results_sorted lg top_k docs,
    rank_results_length lg top_k docs, ?_, ?_⟩
  · simp only [max_score_or_one, if_neg hmax]
  · have he : docs.isEmpty = false := by
      simpa [List.isEmpty_iff] using hne
    simp [search_courses, he]
  · intro d _
    rfl
  · intro rows row _
    exact ⟨rfl, rfl⟩
  · intro rows
    exact get_courses_by_category_sorted lg rows

/-- Witness for C2 at a concrete one-candidate query. -/
theorem search_ranking_formula_spec_witness :
    (rank_results (fun _ => 0) 1 [⟨1, "t", 1, none, none⟩]).length
      = min 1 [(⟨1, "t", 1, none, none⟩ : SearchDoc)].length :=
  (search_ranking_formula_spec (fun _ => 0) 1 [⟨1, "t", 1, none, none⟩]
    ⟨[], [], [], 0, 0⟩ "t" (by simp) (by norm_num [listMax])).2.2.2.2.2.2.2.1

/-- C9 (amended): the route rounds every component, including the composite
ranking, when constructing each `CourseSummary`, and then sorts by the
stored `ranking_score`; so candidates are sorted by the ranking rounded to 4
decimal places, not by the exact composite value.  Each returned
`ranking_score` is `round4` of the exact composite, the returned list is
descending in that rounded score, and because `round4` is monotone the
returned order can deviate from exact-score order only for candidates whose
exact scores round to the same 4-decimal value. -/
theorem ranking_rounded_sort_spec (lg : ℕ → ℚ) (top_k : ℕ)
    (docs : List SearchDoc) :
    (∀ d : SearchDoc,
        (mk_summary lg (max_score_or_one docs) d).ranking_score
          = round4 (exact_ranking lg (max_score_or_one docs) d))
    ∧ List.Sorted rankedBefore (rank_results lg top_k docs)
    ∧ (∀ x y : ℚ, x ≤ y → round4 x ≤ round4 y) := by
  refine ⟨fun d => rfl, rank_results_sorted lg top_k docs, fun x y h => round4_mono h⟩

/-- C9 counterexample: two candidates with equal raw text score whose exact
composite rankings differ (the second is strictly larger) but round to the
same 4-decimal value; the route returns them in input order, so the returned
order is NOT the order of the exact composite scores. -/
theorem ranking_rounded_sort_counterexample :
    exact_ranking (fun _ => 0)
        (max_score_or_one
          [⟨1, "A", 10, some 0, some 0⟩, ⟨2, "B", 10, some (1 / 10000), some 0⟩])
        ⟨2, "B", 10, some (1 / 10000), some 0⟩
      > exact_ranking (fun _ => 0)
        (max_score_or_one
          [⟨1, "A", 10, some 0, some 0⟩, ⟨2, "B", 10, some (1 / 10000), some 0⟩])
        ⟨1, "A", 10, some 0, some 0⟩
    ∧ (rank_results (fun _ => 0) 10
        [⟨1, "A", 10, some 0, some 0⟩, ⟨2, "B", 10, some (1 / 10000), some 0⟩]).map
          (fun s => s.course_id) = [1, 2] := by
  constructor
  · norm_num [exact_ranking, max_score_or_one, listMax, ALPHA, BETA]
  · norm_num [rank_results, max_score_or_one, listMax, mk_summary, ALPHA, BETA,
      List.insertionSort, List.orderedInsert, rankedBefore, round4, roundHalfEven]

/-- C10: the score computation of the search route is total on every
non-empty candidate list: a zero maximum score falls back to divisor 1.0
(so `text_norm` is 0 for all candidates instead of dividing by zero), a
missing/null `smoothed_sentiment` is treated as 0.0 (giving
`sent_norm = 0.5`), and a missing/null `num_reviews` is treated as 0
(giving `pop_weight = log 1 = 0`). -/
theorem search_score_safety_spec (lg : ℕ → ℚ) (docs : List SearchDoc)
    (hlg : lg 0 = 0) :
    (listMax (docs.map (fun d => d.score)) = 0 → max_score_or_one docs = 1)
    ∧ (listMax (docs.map (fun d => d.score)) = 0 → (∀ d ∈ docs, 0 ≤ d.score) →
        ∀ d ∈ docs, (mk_summary lg (max_score_or_one docs) d).text_norm = 0)
    ∧ (∀ M : ℚ, ∀ d : SearchDoc, d.smoothed_sentiment = none →
        (mk_summary lg M d).sent_norm = 1 / 2
        ∧ (mk_summary lg M d).smoothed_sentiment = 0)
    ∧ (∀ M : ℚ, ∀ d : SearchDoc, d.num_reviews = none →
        (mk_summary lg M d).num_reviews = 0
        ∧ (mk_summary lg M d).pop_weight = 0) := by
  have hr0 : round4 0 = 0 := by norm_num [round4, roundHalfEven]
  have hrhalf : round4 (1 / 2) = 1 / 2 := by norm_num [round4, roundHalfEven]
  refine ⟨?_, ?_, ?_, ?_⟩
  · intro h
    simp only [max_score_or_one, if_pos h]
  · intro h hnn d hd
    have hle : d.score ≤ listMax (docs.map (fun d => d.score)) :=
      le_listMax (List.mem_map_of_mem _ hd)
    have hz : d.score = 0 := le_antisymm (h ▸ hle) (hnn d hd)
    simp only [mk_summary, max_score_or_one, if_pos h, hz, zero_div]
    exact hr0
  · intro M d hnone
    constructor
    · simp only [mk_summary, hnone, Option.getD_none, zero_add]
      exact hrhalf
    · simp only [mk_summary, hnone, Option.getD_none]
      exact hr0
  · intro M d hnone
    constructor
    · simp only [mk_summary, hnone, Option.getD_none]
    · simp only [mk_summary, hnone, Option.getD_none, hlg]
      exact hr0

/-- Witness for C10 at a concrete candidate with missing optional fields. -/
theorem search_score_safety_spec_witness :
    max_score_or_one [⟨1, "t", 0, none, none⟩] = 1 :=
  (search_score_safety_spec (fun _ => 0) [⟨1, "t", 0, none, none⟩] rfl).1
    (by norm_num [listMax])

/-- C4: on a zero-candidate search the route returns an empty result (not an
error), always enqueues the keyword for scraping (an upsert, so the queue
gains the keyword exactly when it was absent), records a demand record
(`notified = false`, fresh id) only when a user is present and no
un-notified record for that `(user, keyword)` pair exists, and a second
zero-result search for the same pair leaves the demand records unchanged. -/
theorem search_zero_result_spec (lg : ℕ → ℚ) (top_k : ℕ)
    (user : Option ℕ) (uid : ℕ) (q : String) (st : Store) :
    (search_courses lg top_k user q [] st).2 = []
    ∧ ((search_courses lg top_k user q [] st).1.kw_queue
        = if ∃ e ∈ st.kw_queue, e.keyword = q then st.kw_queue
          else st.kw_queue ++ [⟨q, false⟩])
    ∧ (user = none → (search_courses lg top_k user q [] st).1.requests = st.requests)
    ∧ ((∃ r ∈ st.requests, r.user_id = uid ∧ r.keyword = q ∧ r.notified = false) →
        (search_courses lg top_k (some uid) q [] st).1.requests = st.requests)
    ∧ (¬ (∃ r ∈ st.requests, r.user_id = uid ∧ r.keyword = q ∧ r.notified = false) →
        (search_courses lg top_k (some uid) q [] st).1.requests
          = st.requests ++ [⟨st.next_rid, uid, q, false⟩])
    ∧ (search_courses lg top_k (some uid) q []
          (search_courses lg top_k (some uid) q [] st).1).1.requests
        = (search_courses lg top_k (some uid) q [] st).1.requests := by
  have hq : ∀ s : Store, (enqueue q s).requests = s.requests := by
    intro s
    unfold enqueue
    split_ifs <;> rfl
  have hqrid : ∀ s : Store, (enqueue q s).next_rid = s.next_rid := by
    intro s
    unfold enqueue
    split_ifs <;> rfl
  have hqk : ∀ (s : Store) (u : ℕ), (add_request u q s).kw_queue = s.kw_queue := by
    intro s u
    unfold add_request
    split_ifs <;> rfl
  have hsome : ∀ s : Store,
      search_courses lg top_k (some uid) q [] s = (add_request uid q (enqueue q s), []) :=
    fun s => rfl
  have hnone : ∀ s : Store,
      search_courses lg top_k none q [] s = (enqueue q s, []) :=
    fun s => rfl
  refine ⟨?_, ?_, ?_, ?_, ?_, ?_⟩
  · cases user with
    | none => rw [hnone]
    | some u => rfl
  · cases user with
    | none =>
      rw [hnone]
      unfold enqueue
      split_ifs <;> rfl
    | some u =>
      have hu : search_courses lg top_k (some u) q [] st
          = (add_request u q (enqueue q st), []) := rfl
      rw [hu]
      rw [show (add_request u q (enqueue q st), ([] : List CourseSummary)).1
          = add_request u q (enqueue q st) from rfl, hqk]
      unfold enqueue
      split_ifs <;> rfl
  · intro hu
    subst hu
    rw [hnone]
    exact hq st
  · intro hex
    rw [hsome]
    show (add_request uid q (enqueue q st)).requests = st.requests
    unfold add_request
    split_ifs with h
    · exact hq st
    · exact absurd (by rw [hq st]; exact hex) h
  · intro hex
    rw [hsome]
    show (add_request uid q (enqueue q st)).requests
        = st.requests ++ [⟨st.next_rid, uid, q, false⟩]
    unfold add_request
    split_ifs with h
    · exact absurd (by rw [hq st] at h; exact h) hex
    · simp only [hq st, hqrid st]
  · rw [hsome st]
    show (search_courses lg top_k (some uid) q [] (add_request uid q (enqueue q st))).1.requests
        = (add_request uid q (enqueue q st)).requests
    set st1 := add_request uid q (enqueue q st) with hst1
    have hpend : ∃ r ∈ st1.requests,
        r.user_id = uid ∧ r.keyword = q ∧ r.notified = false := by
      rw [hst1]
      unfold add_request
      split_ifs with h2
      · rw [hq st] at h2
        rw [hq st]
        exact h2
      · exact ⟨⟨(enqueue q st).next_rid, uid, q, false⟩, by simp, rfl, rfl, rfl⟩
    rw [hsome st1]
    show (add_request uid q (enqueue q st1)).requests = st1.requests
    unfold add_request
    split_ifs with h
    · exact hq st1
    · exact absurd (by rw [hq st1]; exact hpend) h

/-! ## Category tagging

Two implementations exist in the repository.
`retag_all` of `src/utils/category_tagger.py` (lines 60-109): per category,
skip when the name is falsy or the keyword list is empty, otherwise `$pull`
the name from every course, text-search the space-joined keywords (results
descending by score, `max_score = docs[0]["score"]`), and walk the result
list tagging (`$addToSet` via `update_one`, first match) until the first
score below `TAG_THRESHOLD * max_score` (`break`).
`retag_all` of `src/app/utils/category_tagger.py` (lines 27-46): skip when
the keyword list or the result is empty, `max_score = max(scores) or 1.0`,
tag every result with score at or above threshold via
`update_many({_id: {$in: ids}}, {$addToSet: ...})`, and never clear old
tags.  The relevance-index query result for each category is passed in as a
list of `(course_id, score)` pairs, since the full-text scoring itself is
external to this core; it depends only on course text, not on category
tags, so both passes of a double run see the same result. -/

structure CourseTag where
  course_id : ℕ
  categories : List String
deriving Repr, DecidableEq

structure CategoryDoc where
  name : String
  keywords : List String
deriving Repr, DecidableEq

/-- `update_many({}, {"$pull": {"categories": name}})`: remove every
occurrence of `name` from every course's category list. -/
def pull_category (name : String) (courses : List CourseTag) : List CourseTag :=
  courses.map (fun c =>
    { c with categories := c.categories.filter (fun s => decide (s ≠ name)) })

/-- `$addToSet`: append `name` unless already present. -/
def add_to_set (name : String) (c : CourseTag) : CourseTag :=
  if name ∈ c.categories then c
  else { c with categories := c.categories ++ [name] }

/-- `update_one({"course_id": cid}, {"$addToSet": ...})`: apply `add_to_set`
to the first course with the given id. -/
def add_to_set_first (cid : ℕ) (name : String) : List CourseTag → List CourseTag
  | [] => []
  | c :: cs =>
    if c.course_id = cid then add_to_set name c :: cs
    else c :: add_to_set_first cid name cs

/-- One category of the standalone `retag_all`
(`src/utils/category_tagger.py`). -/
def retag_category (courses : List CourseTag) (cat : CategoryDoc)
    (result : List (ℕ × ℚ)) : List CourseTag :=
  if cat.name = "" ∨ cat.keywords = [] then courses
  else
    let cleared := pull_category cat.name courses
    match result with
    | [] => cleared
    | top :: _ =>
      let thresh := TAG_THRESHOLD * top.2
      (result.takeWhile (fun d => !decide (d.2 < thresh))).foldl
        (fun cs d => add_to_set_first d.1 cat.name cs) cleared

/-- The standalone backfill pass over all categories. -/
def retag_all (cats : List (CategoryDoc × List (ℕ × ℚ)))
    (courses : List CourseTag) : List CourseTag :=
  cats.foldl (fun cs p => retag_category cs p.1 p.2) courses

/-- One category of the app-package `retag_all`
(`src/app/utils/category_tagger.py`): no clearing step, threshold filter
over the whole result, `update_many` on all matching ids. -/
def app_retag_category (courses : List CourseTag) (cat : CategoryDoc)
    (result : List (ℕ × ℚ)) : List CourseTag :=
  if cat.keywords = [] then courses
  else if result.isEmpty then courses
  else
    let m := listMax (result.map (fun d => d.2))
    let M := if m = 0 then 1 else m
    let thresh := TAG_THRESHOLD * M
    let ids : List ℕ :=
      (result.filter (fun d => decide (thresh ≤ d.2))).map (fun d => d.1)
    courses.map (fun c => if c.course_id ∈ ids then add_to_set cat.name c else c)

/-- The app-package backfill pass over all categories. -/
def app_retag_all (cats : List (CategoryDoc × List (ℕ × ℚ)))
    (courses : List CourseTag) : List CourseTag :=
  cats.foldl (fun cs p => app_retag_category cs p.1 p.2) courses

/-! ### Proof infrastructure for the taggers: per-course views -/

/-- Ids tagged by the standalone tagger: the walked prefix of the result. -/
def taggedIds (result : List (ℕ × ℚ)) : List ℕ :=
  match result with
  | [] => []
  | top :: _ =>
    (result.takeWhile (fun d => !decide (d.2 < TAG_THRESHOLD * top.2))).map
      (fun d => d.1)

/-- Ids tagged by the app-package tagger: threshold filter over the result. -/
def app_tagged_ids (result : List (ℕ × ℚ)) : List ℕ :=
  let m := listMax (result.map (fun d => d.2))
  let M := if m = 0 then 1 else m
  (result.filter (fun d => decide (TAG_THRESHOLD * M ≤ d.2))).map (fun d => d.1)

/-- Per-course effect of `retag_category`. -/
def course_update (cat : CategoryDoc) (result : List (ℕ × ℚ)) (c : CourseTag) :
    CourseTag :=
  if cat.name = "" ∨ cat.keywords = [] then c
  else
    let c1 : CourseTag :=
      { c with categories := c.categories.filter (fun s => decide (s ≠ cat.name)) }
    if c.course_id ∈ taggedIds result then add_to_set cat.name c1 else c1

/-- Per-course effect of `app_retag_category`. -/
def app_course_update (cat : CategoryDoc) (result : List (ℕ × ℚ)) (c : CourseTag) :
    CourseTag :=
  if cat.keywords = [] then c
  else if result.isEmpty then c
  else if c.course_id ∈ app_tagged_ids result then add_to_set cat.name c else c

theorem add_to_set_course_id (name : String) (c : CourseTag) :
    (add_to_set name c).course_id = c.course_id := by
  unfold add_to_set
  split_ifs <;> rfl

theorem course_update_course_id (cat : CategoryDoc) (result : List (ℕ × ℚ))
    (c : CourseTag) : (course_update cat result c).course_id = c.course_id := by
  unfold course_update
  split_ifs <;> first | rfl | exact add_to_set_course_id _ _

theorem app_course_update_course_id (cat : CategoryDoc) (result : List (ℕ × ℚ))
    (c : CourseTag) : (app_course_update cat result c).course_id = c.course_id := by
  unfold app_course_update
  split_ifs <;> first | rfl | exact add_to_set_course_id _ _

theorem add_to_set_idem (name : String) (c : CourseTag) :
    add_to_set name (add_to_set name c) = add_to_set name c := by
  by_cases h : name ∈ c.categories <;> simp [add_to_set, h]

theorem add_to_set_first_eq_map (cid : ℕ) (name : String) :
    ∀ courses : List CourseTag,
      (courses.map (fun c => c.course_id)).Nodup →
      add_to_set_first cid name courses
        = courses.map (fun c => if c.course_id = cid then add_to_set name c else c)
  | [], _ => rfl
  | c :: cs, h => by
    have htail : (cs.map (fun c => c.course_id)).Nodup :=
      (List.nodup_cons.mp h).2
    have hhead : c.course_id ∉ cs.map (fun c => c.course_id) :=
      (List.nodup_cons.mp h).1
    by_cases hc : c.course_id = cid
    · simp only [add_to_set_first, if_pos hc, List.map_cons]
      have : cs.map (fun x => if x.course_id = cid then add_to_set name x else x)
          = cs.map (fun x => x) := by
        apply List.map_congr_left
        intro x hx
        have hxne : x.course_id ≠ cid := by
          intro hxx
          apply hhead
          have hm : x.course_id ∈ cs.map (fun c => c.course_id) :=
            List.mem_map_of_mem _ hx
          rw [hc, ← hxx]
          exact hm
        rw [if_neg hxne]
      rw [this, List.map_id']
    · simp only [add_to_set_first, if_neg hc, List.map_cons]
      rw [add_to_set_first_eq_map cid name cs htail]

theorem foldl_add_to_set_first (name : String) :
    ∀ (L : List (ℕ × ℚ)) (courses : List CourseTag),
      (courses.map (fun c => c.course_id)).Nodup →
      L.foldl (fun cs d => add_to_set_first d.1 name cs) courses
        = courses.map (fun c =>
            if c.course_id ∈ L.map (fun d => d.1) then add_to_set name c else c)
  | [], courses, _ => by
    simp
  | d :: L, courses, h => by
    rw [List.foldl_cons, add_to_set_first_eq_map d.1 name courses h]
    have hids : ((courses.map fun c =>
        if c.course_id = d.1 then add_to_set name c else c).map
          (fun c => c.course_id)) = courses.map (fun c => c.course_id) := by
      rw [List.map_map]
      apply List.map_congr_left
      intro x _
      by_cases hx : x.course_id = d.1 <;>
        simp [hx, add_to_set_course_id]
    rw [foldl_add_to_set_first name L _ (by rw [hids]; exact h), List.map_map]
    apply List.map_congr_left
    intro c _
    by_cases h1 : c.course_id = d.1
    · by_cases h2 : c.course_id ∈ L.map (fun d => d.1) <;>
        simp [Function.comp, h1, h2, add_to_set_course_id, add_to_set_idem]
    · by_cases h2 : c.course_id ∈ L.map (fun d => d.1) <;>
        simp [Function.comp, h1, h2, add_to_set_course_id]

theorem retag_category_eq_map (cat : CategoryDoc) (result : List (ℕ × ℚ))
    (courses : List CourseTag) (h : (courses.map (fun c => c.course_id)).Nodup) :
    retag_category courses cat result = courses.map (course_update cat result) := by
  by_cases hskip : cat.name = "" ∨ cat.keywords = []
  · simp only [retag_category, if_pos hskip]
    have hmap : courses.map (course_update cat result) = courses.map (fun c => c) :=
      List.map_congr_left (fun c _ => by rw [course_update, if_pos hskip])
    rw [hmap, List.map_id']
  · cases result with
    | nil =>
      simp only [retag_category, if_neg hskip]
      unfold pull_category
      apply List.map_congr_left
      intro c _
      rw [course_update, if_neg hskip]
      simp [taggedIds]
    | cons top rest =>
      simp only [retag_category, if_neg hskip]
      have hids : ((pull_category cat.name courses).map (fun c => c.course_id))
          = courses.map (fun c => c.course_id) := by
        unfold pull_category
        rw [List.map_map]
        rfl
      rw [foldl_add_to_set_first cat.name _ _ (by rw [hids]; exact h)]
      unfold pull_category
      rw [List.map_map]
      apply List.map_congr_left
      intro c _
      rw [course_update, if_neg hskip]
      rfl

theorem retag_all_eq_map :
    ∀ (cats : List (CategoryDoc × List (ℕ × ℚ))) (courses : List CourseTag),
      (courses.map (fun c => c.course_id)).Nodup →
      retag_all cats courses
        = courses.map (fun c => cats.foldl (fun x p => course_update p.1 p.2 x) c)
  | [], courses, _ => by
    simp [retag_all]
  | p :: cats, courses, h => by
    have hcat := retag_category_eq_map p.1 p.2 courses h
    have hids : ((retag_category courses p.1 p.2).map (fun c => c.course_id))
        = courses.map (fun c => c.course_id) := by
      rw [hcat, List.map_map]
      apply List.map_congr_left
      intro c _
      exact course_update_course_id p.1 p.2 c
    have hrec := retag_all_eq_map cats (retag_category courses p.1 p.2)
      (by rw [hids]; exact h)
    show List.foldl (fun cs q => retag_category cs q.1 q.2) courses (p :: cats) = _
    rw [List.foldl_cons]
    rw [show List.foldl (fun cs q => retag_category cs q.1 q.2)
        (retag_category courses p.1 p.2) cats
        = retag_all cats (retag_category courses p.1 p.2) from rfl]
    rw [hrec, hcat, List.map_map]
    apply List.map_congr_left
    intro c _
    rfl

theorem app_retag_category_eq_map (cat : CategoryDoc) (result : List (ℕ × ℚ))
    (courses : List CourseTag) :
    app_retag_category courses cat result
      = courses.map (app_course_update cat result) := by
  by_cases h1 : cat.keywords = []
  · simp only [app_retag_category, if_pos h1]
    have hmap : courses.map (app_course_update cat result) = courses.map (fun c => c) :=
      List.map_congr_left (fun c _ => by rw [app_course_update, if_pos h1])
    rw [hmap, List.map_id']
  · by_cases h2 : result.isEmpty
    · simp only [app_retag_category, if_neg h1, if_pos h2]
      have hmap : courses.map (app_course_update cat result)
          = courses.map (fun c => c) :=
        List.map_congr_left (fun c _ => by
          rw [app_course_update, if_neg h1, if_pos h2])
      rw [hmap, List.map_id']
    · simp only [app_retag_category, if_neg h1, if_neg h2]
      apply List.map_congr_left
      intro c _
      rw [app_course_update, if_neg h1, if_neg h2]
      rfl

theorem app_retag_all_eq_map :
    ∀ (cats : List (CategoryDoc × List (ℕ × ℚ))) (courses : List CourseTag),
      app_retag_all cats courses
        = courses.map (fun c => cats.foldl (fun x p => app_course_update p.1 p.2 x) c)
  | [], courses => by
    simp [app_retag_all]
  | p :: cats, courses => by
    have hcat := app_retag_category_eq_map p.1 p.2 courses
    have hrec := app_retag_all_eq_map cats (app_retag_category courses p.1 p.2)
    show List.foldl (fun cs q => app_retag_category cs q.1 q.2) courses (p :: cats) = _
    rw [List.foldl_cons]
    rw [show List.foldl (fun cs q => app_retag_category cs q.1 q.2)
        (app_retag_category courses p.1 p.2) cats
        = app_retag_all cats (app_retag_category courses p.1 p.2) from rfl]
    rw [hrec, hcat, List.map_map]
    apply List.map_congr_left
    intro c _
    rfl

/-- Names of categories the standalone tagger acts on (non-empty name and
keyword list). -/
def activeNames (cats : List (CategoryDoc × List (ℕ × ℚ))) : List String :=
  cats.filterMap (fun p =>
    if p.1.name = "" ∨ p.1.keywords = [] then none else some p.1.name)

/-- Names the standalone tagger tags onto the course with id `cid`. -/
def tagsFor (cats : List (CategoryDoc × List (ℕ × ℚ))) (cid : ℕ) : List String :=
  cats.filterMap (fun p =>
    if p.1.name = "" ∨ p.1.keywords = [] then none
    else if cid ∈ taggedIds p.2 then some p.1.name else none)

/-- Names of categories the app-package tagger acts on. -/
def appActiveNames (cats : List (CategoryDoc × List (ℕ × ℚ))) : List String :=
  cats.filterMap (fun p =>
    if p.1.keywords = [] then none
    else if p.2.isEmpty then none else some p.1.name)

/-- Names the app-package tagger tags onto the course with id `cid`. -/
def appTagsFor (cats : List (CategoryDoc × List (ℕ × ℚ))) (cid : ℕ) : List String :=
  cats.filterMap (fun p =>
    if p.1.keywords = [] then none
    else if p.2.isEmpty then none
    else if cid ∈ app_tagged_ids p.2 then some p.1.name else none)

theorem activeNames_sublist (cats : List (CategoryDoc × List (ℕ × ℚ))) :
    List.Sublist (activeNames cats) (cats.map (fun p => p.1.name)) := by
  induction cats with
  | nil => exact List.Sublist.refl _
  | cons p cats ih =>
    by_cases hskip : p.1.name = "" ∨ p.1.keywords = []
    · simp only [activeNames, List.filterMap_cons, if_pos hskip, List.map_cons]
      exact List.Sublist.cons _ ih
    · simp only [activeNames, List.filterMap_cons, if_neg hskip, List.map_cons]
      exact List.Sublist.cons₂ _ ih

theorem appActiveNames_sublist (cats : List (CategoryDoc × List (ℕ × ℚ))) :
    List.Sublist (appActiveNames cats) (cats.map (fun p => p.1.name)) := by
  induction cats with
  | nil => exact List.Sublist.refl _
  | cons p cats ih =>
    by_cases h1 : p.1.keywords = []
    · simp only [appActiveNames, List.filterMap_cons, if_pos h1, List.map_cons]
      exact List.Sublist.cons _ ih
    · by_cases h2 : p.2.isEmpty
      · simp only [appActiveNames, List.filterMap_cons, if_neg h1, if_pos h2,
          List.map_cons]
        exact List.Sublist.cons _ ih
      · simp only [appActiveNames, List.filterMap_cons, if_neg h1, if_neg h2,
          List.map_cons]
        exact List.Sublist.cons₂ _ ih

theorem tagsFor_subset {cats : List (CategoryDoc × List (ℕ × ℚ))} {cid : ℕ}
    {s : String} (hs : s ∈ tagsFor cats cid) : s ∈ activeNames cats := by
  rcases List.mem_filterMap.mp hs with ⟨p, hp, hf⟩
  apply List.mem_filterMap.mpr
  refine ⟨p, hp, ?_⟩
  by_cases h1 : p.1.name = "" ∨ p.1.keywords = []
  · rw [if_pos h1] at hf
    cases hf
  · rw [if_neg h1] at hf
    by_cases h2 : cid ∈ taggedIds p.2
    · rw [if_pos h2] at hf
      rw [if_neg h1]
      exact hf
    · rw [if_neg h2] at hf
      cases hf

theorem appTagsFor_subset {cats : List (CategoryDoc × List (ℕ × ℚ))} {cid : ℕ}
    {s : String} (hs : s ∈ appTagsFor cats cid) : s ∈ appActiveNames cats := by
  rcases List.mem_filterMap.mp hs with ⟨p, hp, hf⟩
  apply List.mem_filterMap.mpr
  refine ⟨p, hp, ?_⟩
  by_cases h1 : p.1.keywords = []
  · rw [if_pos h1] at hf
    cases hf
  · by_cases h2 : p.2.isEmpty
    · rw [if_neg h1, if_pos h2] at hf
      cases hf
    · rw [if_neg h1, if_neg h2] at hf
      by_cases h3 : cid ∈ app_tagged_ids p.2
      · rw [if_pos h3] at hf
        rw [if_neg h1, if_neg h2]
        exact hf
      · rw [if_neg h3] at hf
        cases hf

theorem course_update_categories_active (p : CategoryDoc × List (ℕ × ℚ))
    (c : CourseTag) (hskip : ¬(p.1.name = "" ∨ p.1.keywords = [])) :
    (course_update p.1 p.2 c).categories
      = c.categories.filter (fun s => decide (s ≠ p.1.name))
        ++ (if c.course_id ∈ taggedIds p.2 then [p.1.name] else []) := by
  simp only [course_update, if_neg hskip]
  by_cases htag : c.course_id ∈ taggedIds p.2
  · rw [if_pos htag, if_pos htag, add_to_set]
    have hmem : p.1.name ∉
        c.categories.filter (fun s => decide (s ≠ p.1.name)) := by
      simp [List.mem_filter]
    rw [if_neg hmem]
  · rw [if_neg htag, if_neg htag, List.append_nil]

theorem course_fold_closed :
    ∀ (cats : List (CategoryDoc × List (ℕ × ℚ))) (c : CourseTag),
      (activeNames cats).Nodup →
      cats.foldl (fun x p => course_update p.1 p.2 x) c
        = { course_id := c.course_id
            categories :=
              c.categories.filter (fun s => decide (s ∉ activeNames cats))
                ++ tagsFor cats c.course_id }
  | [], c, _ => by
    cases c with
    | mk cid cl => simp [activeNames, tagsFor]
  | p :: cats, c, h => by
    rw [List.foldl_cons]
    by_cases hskip : p.1.name = "" ∨ p.1.keywords = []
    · have hu : course_update p.1 p.2 c = c := by
        rw [course_update, if_pos hskip]
      have hnames : activeNames (p :: cats) = activeNames cats := by
        simp [activeNames, List.filterMap_cons, hskip]
      have htags : tagsFor (p :: cats) c.course_id = tagsFor cats c.course_id := by
        simp [tagsFor, List.filterMap_cons, hskip]
      rw [hu, hnames, htags]
      exact course_fold_closed cats c (by rw [hnames] at h; exact h)
    · have hnames : activeNames (p :: cats) = p.1.name :: activeNames cats := by
        simp [activeNames, List.filterMap_cons, hskip]
      have hN : p.1.name ∉ activeNames cats := by
        rw [hnames] at h
        exact (List.nodup_cons.mp h).1
      have htail : (activeNames cats).Nodup := by
        rw [hnames] at h
        exact (List.nodup_cons.mp h).2
      rw [course_fold_closed cats (course_update p.1 p.2 c) htail,
        course_update_course_id]
      congr 1
      rw [course_update_categories_active p c hskip, List.filter_append]
      have hT0 : (if c.course_id ∈ taggedIds p.2 then [p.1.name] else []).filter
          (fun s => decide (s ∉ activeNames cats))
          = (if c.course_id ∈ taggedIds p.2 then [p.1.name] else []) := by
        by_cases htag : c.course_id ∈ taggedIds p.2 <;> simp [htag, hN]
      have hff : (c.categories.filter (fun s => decide (s ≠ p.1.name))).filter
            (fun s => decide (s ∉ activeNames cats))
          = c.categories.filter (fun s => decide (s ∉ activeNames (p :: cats))) := by
        rw [List.filter_filter]
        apply List.filter_congr
        intro s _
        rw [hnames]
        by_cases h1 : s = p.1.name <;> by_cases h2 : s ∈ activeNames cats <;>
          simp [h1, h2]
      have htf : tagsFor (p :: cats) c.course_id
          = (if c.course_id ∈ taggedIds p.2 then [p.1.name] else [])
            ++ tagsFor cats c.course_id := by
        by_cases htag : c.course_id ∈ taggedIds p.2 <;>
          simp [tagsFor, List.filterMap_cons, hskip, htag]
      rw [hT0, hff, htf, List.append_assoc]

theorem app_fold_closed :
    ∀ (cats : List (CategoryDoc × List (ℕ × ℚ))) (c : CourseTag),
      (appActiveNames cats).Nodup →
      cats.foldl (fun x p => app_course_update p.1 p.2 x) c
        = { course_id := c.course_id
            categories := c.categories
              ++ (appTagsFor cats c.course_id).filter
                  (fun s => decide (s ∉ c.categories)) }
  | [], c, _ => by
    cases c with
    | mk cid cl => simp [appTagsFor]
  | p :: cats, c, h => by
    rw [List.foldl_cons]
    by_cases h1 : p.1.keywords = []
    · have hu : app_course_update p.1 p.2 c = c := by
        rw [app_course_update, if_pos h1]
      have htf : appTagsFor (p :: cats) c.course_id = appTagsFor cats c.course_id := by
        simp [appTagsFor, List.filterMap_cons, h1]
      have hnames : appActiveNames (p :: cats) = appActiveNames cats := by
        simp [appActiveNames, List.filterMap_cons, h1]
      rw [hu, htf]
      exact app_fold_closed cats c (by rw [hnames] at h; exact h)
    · by_cases h2 : p.2.isEmpty
      · have h2e : p.2 = [] := List.isEmpty_iff.mp h2
        have hu : app_course_update p.1 p.2 c = c := by
          rw [app_course_update, if_neg h1, if_pos h2]
        have htf : appTagsFor (p :: cats) c.course_id
            = appTagsFor cats c.course_id := by
          simp [appTagsFor, List.filterMap_cons, h1, h2e]
        have hnames : appActiveNames (p :: cats) = appActiveNames cats := by
          simp [appActiveNames, List.filterMap_cons, h1, h2e]
        rw [hu, htf]
        exact app_fold_closed cats c (by rw [hnames] at h; exact h)
      · have h2e : p.2 ≠ [] := by
          simpa [List.isEmpty_iff] using h2
        have hnames : appActiveNames (p :: cats)
            = p.1.name :: appActiveNames cats := by
          simp [appActiveNames, List.filterMap_cons, h1, h2e]
        have hN : p.1.name ∉ appActiveNames cats := by
          rw [hnames] at h
          exact (List.nodup_cons.mp h).1
        have htail : (appActiveNames cats).Nodup := by
          rw [hnames] at h
          exact (List.nodup_cons.mp h).2
        by_cases htag : c.course_id ∈ app_tagged_ids p.2
        · have htf : appTagsFor (p :: cats) c.course_id
              = p.1.name :: appTagsFor cats c.course_id := by
            simp [appTagsFor, List.filterMap_cons, h1, h2e, htag]
          have hu : app_course_update p.1 p.2 c = add_to_set p.1.name c := by
            rw [app_course_update, if_neg h1, if_neg h2, if_pos htag]
          by_cases hmem : p.1.name ∈ c.categories
          · have hadd : add_to_set p.1.name c = c := by
              rw [add_to_set, if_pos hmem]
            rw [hu, hadd, app_fold_closed cats c htail]
            congr 1
            rw [htf, List.filter_cons]
            simp [hmem]
          · have hadd : add_to_set p.1.name c
                = { c with categories := c.categories ++ [p.1.name] } := by
              rw [add_to_set, if_neg hmem]
            rw [hu, hadd, app_fold_closed cats _ htail]
            congr 1
            have hX : (appTagsFor cats c.course_id).filter
                  (fun s => decide (s ∉ c.categories ++ [p.1.name]))
                = (appTagsFor cats c.course_id).filter
                  (fun s => decide (s ∉ c.categories)) := by
              apply List.filter_congr
              intro s hs
              have hsN : s ≠ p.1.name := by
                intro hh
                exact hN (hh ▸ appTagsFor_subset hs)
              simp [List.mem_append, hsN]
            rw [hX, htf, List.filter_cons]
            simp only [hmem, decide_not, List.append_assoc]
            simp [hmem]
        · have htf : appTagsFor (p :: cats) c.course_id
              = appTagsFor cats c.course_id := by
            simp [appTagsFor, List.filterMap_cons, h1, h2e, htag]
          have hu : app_course_update p.1 p.2 c = c := by
            rw [app_course_update, if_neg h1, if_neg h2, if_neg htag]
          rw [hu, htf]
          exact app_fold_closed cats c htail

theorem mem_activeNames {cats : List (CategoryDoc × List (ℕ × ℚ))}
    {cat : CategoryDoc} {result : List (ℕ × ℚ)}
    (hmem : (cat, result) ∈ cats)
    (hactive : ¬(cat.name = "" ∨ cat.keywords = [])) :
    cat.name ∈ activeNames cats :=
  List.mem_filterMap.mpr ⟨(cat, result), hmem, by rw [if_neg hactive]⟩

theorem mem_appTagsFor {cats : List (CategoryDoc × List (ℕ × ℚ))}
    {cat : CategoryDoc} {result : List (ℕ × ℚ)} {cid : ℕ}
    (hmem : (cat, result) ∈ cats) (h1 : cat.keywords ≠ []) (h2 : result ≠ [])
    (htag : cid ∈ app_tagged_ids result) :
    cat.name ∈ appTagsFor cats cid :=
  List.mem_filterMap.mpr ⟨(cat, result), hmem, by
    rw [if_neg h1, if_neg (by simpa [List.isEmpty_iff] using h2), if_pos htag]⟩

theorem mem_tagsFor_iff :
    ∀ {cats : List (CategoryDoc × List (ℕ × ℚ))} {cat : CategoryDoc}
      {result : List (ℕ × ℚ)} {cid : ℕ},
      (activeNames cats).Nodup →
      (cat, result) ∈ cats →
      ¬(cat.name = "" ∨ cat.keywords = []) →
      (cat.name ∈ tagsFor cats cid ↔ cid ∈ taggedIds result)
  | [], _, _, _, _, hmem, _ => by cases hmem
  | q :: qs, cat, result, cid, hnodup, hmem, hactive => by
    rcases List.mem_cons.mp hmem with heq | hmem2
    · have hq1 : q.1 = cat := by rw [← heq]
      have hq2 : q.2 = result := by rw [← heq]
      have hnames : activeNames (q :: qs) = cat.name :: activeNames qs := by
        simp [activeNames, List.filterMap_cons, hq1, if_neg hactive]
      have hN : cat.name ∉ activeNames qs := by
        rw [hnames] at hnodup
        exact (List.nodup_cons.mp hnodup).1
      by_cases htag : cid ∈ taggedIds result
      · have htf : tagsFor (q :: qs) cid = cat.name :: tagsFor qs cid := by
          simp [tagsFor, List.filterMap_cons, hq1, hq2, if_neg hactive, htag]
        rw [htf]
        simp [htag]
      · have htf : tagsFor (q :: qs) cid = tagsFor qs cid := by
          simp [tagsFor, List.filterMap_cons, hq1, hq2, if_neg hactive, htag]
        rw [htf]
        constructor
        · intro hin
          exact absurd (tagsFor_subset hin) hN
        · intro hin
          exact absurd hin htag
    · by_cases hq : q.1.name = "" ∨ q.1.keywords = []
      · have htf : tagsFor (q :: qs) cid = tagsFor qs cid := by
          simp [tagsFor, List.filterMap_cons, hq]
        have hnames : activeNames (q :: qs) = activeNames qs := by
          simp [activeNames, List.filterMap_cons, hq]
        rw [htf]
        exact mem_tagsFor_iff (by rw [hnames] at hnodup; exact hnodup) hmem2 hactive
      · have hnames : activeNames (q :: qs) = q.1.name :: activeNames qs := by
          simp [activeNames, List.filterMap_cons, hq]
      -- the active head has a different name from `cat`
        have hN : q.1.name ∉ activeNames qs := by
          rw [hnames] at hnodup
          exact (List.nodup_cons.mp hnodup).1
        have htail : (activeNames qs).Nodup := by
          rw [hnames] at hnodup
          exact (List.nodup_cons.mp hnodup).2
        have hne : q.1.name ≠ cat.name := by
          intro hh
          exact hN (hh ▸ mem_activeNames hmem2 hactive)
        have hiff : cat.name ∈ tagsFor qs cid ↔ cid ∈ taggedIds result :=
          mem_tagsFor_iff htail hmem2 hactive
        by_cases htag : cid ∈ taggedIds q.2
        · have htf : tagsFor (q :: qs) cid = q.1.name :: tagsFor qs cid := by
            simp [tagsFor, List.filterMap_cons, hq, htag]
          rw [htf, List.mem_cons]
          constructor
          · intro hin
            rcases hin with hh | hh
            · exact absurd hh.symm hne
            · exact hiff.mp hh
          · intro hin
            exact Or.inr (hiff.mpr hin)
        · have htf : tagsFor (q :: qs) cid = tagsFor qs cid := by
            simp [tagsFor, List.filterMap_cons, hq, htag]
          rw [htf]
          exact hiff

theorem mem_takeWhile_of_sorted {t : ℚ} :
    ∀ {l : List (ℕ × ℚ)}, l.Pairwise (fun a b => b.2 ≤ a.2) →
      ∀ {d : ℕ × ℚ}, d ∈ l → t ≤ d.2 →
      d ∈ l.takeWhile (fun x => !decide (x.2 < t))
  | [], _, _, hd, _ => by cases hd
  | a :: l, hp, d, hd, ht => by
    have hple := (List.pairwise_cons.mp hp).1
    have htail := (List.pairwise_cons.mp hp).2
    have hat : t ≤ a.2 := by
      rcases List.mem_cons.mp hd with rfl | hm
      · exact ht
      · exact le_trans ht (hple d hm)
    have hpa : (fun x : ℕ × ℚ => !decide (x.2 < t)) a = true := by
      simp [not_lt.mpr hat]
    rw [List.takeWhile_cons, if_pos hpa]
    rcases List.mem_cons.mp hd with rfl | hm
    · exact List.mem_cons_self _ _
    · exact List.mem_cons_of_mem _ (mem_takeWhile_of_sorted htail hm ht)

theorem mem_taggedIds_iff {top : ℕ × ℚ} {rest : List (ℕ × ℚ)} {cid : ℕ}
    (hsorted : (top :: rest).Pairwise (fun a b => b.2 ≤ a.2)) :
    cid ∈ taggedIds (top :: rest)
      ↔ ∃ s, (cid, s) ∈ top :: rest ∧ TAG_THRESHOLD * top.2 ≤ s := by
  simp only [taggedIds]
  constructor
  · intro h
    rcases List.mem_map.mp h with ⟨d, hd, hd1⟩
    have hdl : d ∈ top :: rest :=
      (List.takeWhile_prefix _).sublist.subset hd
    have hdp := List.mem_takeWhile_imp hd
    have hds : TAG_THRESHOLD * top.2 ≤ d.2 := by
      simpa [not_lt] using hdp
    exact ⟨d.2, by rw [← hd1]; exact hdl, hds⟩
  · rintro ⟨s, hs, hthresh⟩
    have := mem_takeWhile_of_sorted hsorted hs hthresh
    exact List.mem_map.mpr ⟨(cid, s), this, rfl⟩

theorem listMax_mem : ∀ l : List ℚ, l ≠ [] → listMax l ∈ l
  | [], h => absurd rfl h
  | [x], _ => by
    rw [listMax]
    exact List.mem_singleton.mpr rfl
  | x :: y :: t, _ => by
    rw [listMax]
    rcases max_choice x (listMax (y :: t)) with hm | hm
    · rw [hm]
      exact List.mem_cons_self _ _
    · rw [hm]
      exact List.mem_cons_of_mem _ (listMax_mem (y :: t) (by simp))

theorem listMax_cons_of_le {x : ℚ} {l : List ℚ} (h : ∀ y ∈ l, y ≤ x) :
    listMax (x :: l) = x := by
  cases l with
  | nil => rfl
  | cons y t =>
    rw [listMax]
    exact max_eq_left (le_trans (le_refl _)
      (h _ (listMax_mem (y :: t) (by simp))))

/-- C3 (amended): after the standalone tagger's retag pass
(`src/utils/category_tagger.py`), with a category `N` whose keyword query
returned a non-empty descending result list headed by the maximum score, a
course carries tag `N` if and only if its relevance score is at least
`TAG_THRESHOLD` times that maximum — the clearing step guarantees no stale
tags survive.  The app-package retag pass
(`src/app/utils/category_tagger.py`) tags every course at or above the same
threshold but never clears `N` first, so any tag a course already carried
(below-threshold or outside the result set) survives that pass. -/
theorem retag_threshold_spec
    (cats : List (CategoryDoc × List (ℕ × ℚ))) (courses : List CourseTag)
    (catN : CategoryDoc) (top : ℕ × ℚ) (rest : List (ℕ × ℚ))
    (hmem : (catN, top :: rest) ∈ cats)
    (hname : catN.name ≠ "") (hkw : catN.keywords ≠ [])
    (hpos : 0 < top.2)
    (hsorted : (top :: rest).Pairwise (fun a b => b.2 ≤ a.2))
    (hids : (courses.map (fun c => c.course_id)).Nodup)
    (hnames : (cats.map (fun p => p.1.name)).Nodup) :
    (∀ c ∈ retag_all cats courses,
        (catN.name ∈ c.categories
          ↔ ∃ s, (c.course_id, s) ∈ top :: rest ∧ TAG_THRESHOLD * top.2 ≤ s))
    ∧ (∀ c0 ∈ courses,
        (∃ s, (c0.course_id, s) ∈ top :: rest ∧ TAG_THRESHOLD * top.2 ≤ s) →
        ∃ c ∈ app_retag_all cats courses,
          c.course_id = c0.course_id ∧ catN.name ∈ c.categories)
    ∧ (∀ c0 ∈ courses, ∀ nm ∈ c0.categories,
        ∃ c ∈ app_retag_all cats courses,
          c.course_id = c0.course_id ∧ nm ∈ c.categories) := by
  have hactive : ¬(catN.name = "" ∨ catN.keywords = []) := by
    rintro (h | h) <;> contradiction
  have hAnodup : (activeNames cats).Nodup :=
    List.Nodup.sublist (activeNames_sublist cats) hnames
  have hBnodup : (appActiveNames cats).Nodup :=
    List.Nodup.sublist (appActiveNames_sublist cats) hnames
  have htagids : ∀ cid : ℕ,
      (∃ s, (cid, s) ∈ top :: rest ∧ TAG_THRESHOLD * top.2 ≤ s) →
      cid ∈ app_tagged_ids (top :: rest) := by
    rintro cid ⟨s, hs, hthresh⟩
    have hmax : listMax ((top :: rest).map (fun d => d.2)) = top.2 := by
      rw [List.map_cons]
      apply listMax_cons_of_le
      intro y hy
      rcases List.mem_map.mp hy with ⟨d, hd, rfl⟩
      exact (List.pairwise_cons.mp hsorted).1 d hd
    simp only [app_tagged_ids, hmax, if_neg (ne_of_gt hpos)]
    apply List.mem_map.mpr
    refine ⟨(cid, s), List.mem_filter.mpr ⟨hs, by simp [hthresh]⟩, rfl⟩
  refine ⟨?_, ?_, ?_⟩
  · intro c hc
    rw [retag_all_eq_map cats courses hids] at hc
    rcases List.mem_map.mp hc with ⟨c0, hc0, rfl⟩
    rw [course_fold_closed cats c0 hAnodup]
    show catN.name ∈ _ ++ _ ↔ _
    rw [List.mem_append]
    have hnot : catN.name ∉
        c0.categories.filter (fun s => decide (s ∉ activeNames cats)) := by
      intro hh
      have h2 := (List.mem_filter.mp hh).2
      simp only [decide_eq_true_eq] at h2
      exact h2 (mem_activeNames hmem hactive)
    rw [or_iff_right hnot, mem_tagsFor_iff hAnodup hmem hactive,
      mem_taggedIds_iff hsorted]
  · rintro c0 hc0 hex
    rw [app_retag_all_eq_map]
    refine ⟨_, List.mem_map_of_mem _ hc0, ?_, ?_⟩
    · rw [app_fold_closed cats c0 hBnodup]
    · rw [app_fold_closed cats c0 hBnodup]
      show catN.name ∈ c0.categories ++ _
      have hin : catN.name ∈ appTagsFor cats c0.course_id :=
        mem_appTagsFor hmem hkw (by simp) (htagids c0.course_id hex)
      by_cases hmemc : catN.name ∈ c0.categories
      · exact List.mem_append_left _ hmemc
      · exact List.mem_append_right _
          (List.mem_filter.mpr ⟨hin, by simp [hmemc]⟩)
  · intro c0 hc0 nm hnm
    rw [app_retag_all_eq_map]
    refine ⟨_, List.mem_map_of_mem _ hc0, ?_, ?_⟩
    · rw [app_fold_closed cats c0 hBnodup]
    · rw [app_fold_closed cats c0 hBnodup]
      exact List.mem_append_left _ hnm

/-- C3 counterexample: the app-package retag pass for category `X`
(keywords non-empty, result `[(9, 10)]`, maximum 10) leaves course 7 — which
is outside the result set — still carrying its stale `X` tag, so "no course
below the threshold (or outside the result set) retains N" is false for
that pass. -/
theorem retag_stale_tag_counterexample :
    ∃ c ∈ app_retag_all [(⟨"X", ["kw"]⟩, [(9, 10)])] [⟨7, ["X"]⟩],
      c.course_id = 7 ∧ "X" ∈ c.categories
        ∧ ¬ (7 ∈ ([(9, (10 : ℚ))] : List (ℕ × ℚ)).map (fun d => d.1)) := by
  refine ⟨⟨7, ["X"]⟩, ?_, rfl, by simp, by simp⟩
  norm_num [app_retag_all, app_retag_category, app_tagged_ids, listMax,
    TAG_THRESHOLD, List.foldl_cons, add_to_set]

/-- Witness for C3 at a concrete category, result list and course set. -/
theorem retag_threshold_spec_witness :
    ("X" ∈ (⟨9, ["X"]⟩ : CourseTag).categories
      ↔ ∃ s, ((⟨9, ["X"]⟩ : CourseTag).course_id, s) ∈ [((9 : ℕ), (10 : ℚ))]
          ∧ TAG_THRESHOLD * ((9 : ℕ), (10 : ℚ)).2 ≤ s) :=
  (retag_threshold_spec [(⟨"X", ["kw"]⟩, [(9, 10)])] [⟨9, []⟩]
    ⟨"X", ["kw"]⟩ (9, 10) [] (by simp) (by simp) (by simp) (by norm_num)
    (by simp) (by simp) (by simp)).1 ⟨9, ["X"]⟩
    (by
      norm_num [retag_all, retag_category, pull_category, add_to_set_first,
        add_to_set, TAG_THRESHOLD, List.takeWhile]
      simp)

/-- C6 (amended): for a category whose keyword list is empty, both
`retag_all` implementations skip that category entirely (the `continue`
fires before any clearing), so a retag pass leaves every course's category
set unchanged for that category — in particular existing tags with its name
survive; the name-clearing on empty keywords exists only in the
change-stream watcher of `src/utils/category_tagger.py`, not in
`retag_all`. -/
theorem empty_keywords_skip_spec (courses : List CourseTag)
    (cat : CategoryDoc) (result : List (ℕ × ℚ)) (hkw : cat.keywords = []) :
    retag_category courses cat result = courses
    ∧ app_retag_category courses cat result = courses := by
  constructor
  · unfold retag_category
    rw [if_pos (Or.inr hkw)]
  · unfold app_retag_category
    rw [if_pos hkw]

/-- C6 counterexample: a retag pass over the single category `X` with
keywords `[]` leaves course 1 still carrying `X` (in both implementations),
so "no course carries that category's name after the pass" is false. -/
theorem empty_keywords_counterexample :
    retag_all [(⟨"X", []⟩, [])] [⟨1, ["X"]⟩] = [⟨1, ["X"]⟩]
    ∧ app_retag_all [(⟨"X", []⟩, [])] [⟨1, ["X"]⟩] = [⟨1, ["X"]⟩]
    ∧ ∃ c ∈ retag_all [(⟨"X", []⟩, [])] [⟨1, ["X"]⟩], "X" ∈ c.categories := by
  refine ⟨?_, ?_, ?_⟩
  · simp [retag_all, retag_category]
  · simp [app_retag_all, app_retag_category]
  · refine ⟨⟨1, ["X"]⟩, ?_, by simp⟩
    simp [retag_all, retag_category]

/-- Witness for C6 at a concrete course list and category. -/
theorem empty_keywords_skip_spec_witness :
    retag_category [⟨1, ["X"]⟩] ⟨"X", []⟩ [] = [⟨1, ["X"]⟩] :=
  (empty_keywords_skip_spec [⟨1, ["X"]⟩] ⟨"X", []⟩ [] rfl).1

/-- C7: with unique course ids and unique category names, running either
`retag_all` twice in immediate succession — the relevance-index results
depend only on course text, so both runs see the same query results —
leaves every course with exactly the category set the first run produced. -/
theorem retag_all_idempotent (cats : List (CategoryDoc × List (ℕ × ℚ)))
    (courses : List CourseTag)
    (hids : (courses.map (fun c => c.course_id)).Nodup)
    (hnames : (cats.map (fun p => p.1.name)).Nodup) :
    retag_all cats (retag_all cats courses) = retag_all cats courses
    ∧ app_retag_all cats (app_retag_all cats courses)
      = app_retag_all cats courses := by
  have hAnodup : (activeNames cats).Nodup :=
    List.Nodup.sublist (activeNames_sublist cats) hnames
  have hBnodup : (appActiveNames cats).Nodup :=
    List.Nodup.sublist (appActiveNames_sublist cats) hnames
  constructor
  · have hids2 : ((retag_all cats courses).map (fun c => c.course_id)).Nodup := by
      rw [retag_all_eq_map cats courses hids, List.map_map]
      have hcomp : courses.map
          ((fun c : CourseTag => c.course_id)
            ∘ fun c => cats.foldl (fun x p => course_update p.1 p.2 x) c)
          = courses.map (fun c => c.course_id) := by
        apply List.map_congr_left
        intro c _
        show (cats.foldl (fun x p => course_update p.1 p.2 x) c).course_id
            = c.course_id
        rw [course_fold_closed cats c hAnodup]
      rw [hcomp]
      exact hids
    rw [retag_all_eq_map cats _ hids2, retag_all_eq_map cats courses hids,
      List.map_map]
    apply List.map_congr_left
    intro c _
    show cats.foldl (fun x p => course_update p.1 p.2 x)
        (cats.foldl (fun x p => course_update p.1 p.2 x) c)
      = cats.foldl (fun x p => course_update p.1 p.2 x) c
    rw [course_fold_closed cats c hAnodup, course_fold_closed cats _ hAnodup]
    congr 1
    rw [List.filter_append]
    have hAA : (c.categories.filter
          (fun s => decide (s ∉ activeNames cats))).filter
          (fun s => decide (s ∉ activeNames cats))
        = c.categories.filter (fun s => decide (s ∉ activeNames cats)) := by
      rw [List.filter_filter]
      apply List.filter_congr
      intro s _
      rw [Bool.and_self]
    have hT : (tagsFor cats c.course_id).filter
          (fun s => decide (s ∉ activeNames cats)) = [] := by
      rw [List.filter_eq_nil_iff]
      intro s hs
      simp [tagsFor_subset hs]
    rw [hAA, hT, List.append_nil]
  · have happ : ∀ c0 : CourseTag,
        cats.foldl (fun x p => app_course_update p.1 p.2 x)
            (cats.foldl (fun x p => app_course_update p.1 p.2 x) c0)
          = cats.foldl (fun x p => app_course_update p.1 p.2 x) c0 := by
      intro c0
      rw [app_fold_closed cats c0 hBnodup, app_fold_closed cats _ hBnodup]
      congr 1
      show (c0.categories ++ _) ++ (appTagsFor cats c0.course_id).filter _
          = c0.categories ++ _
      have hT2 : (appTagsFor cats c0.course_id).filter
            (fun s => decide (s ∉ c0.categories
              ++ (appTagsFor cats c0.course_id).filter
                  (fun s => decide (s ∉ c0.categories)))) = [] := by
        rw [List.filter_eq_nil_iff]
        intro s hs
        simp only [decide_eq_true_eq, Decidable.not_not]
        rw [List.mem_append]
        by_cases hc : s ∈ c0.categories
        · exact Or.inl hc
        · exact Or.inr (List.mem_filter.mpr ⟨hs, by simp [hc]⟩)
      rw [hT2, List.append_nil]
    rw [app_retag_all_eq_map cats courses, app_retag_all_eq_map cats _,
      List.map_map]
    apply List.map_congr_left
    intro c _
    exact happ c

/-- Witness for C7 at a concrete category list and course set. -/
theorem retag_all_idempotent_witness :
    retag_all [(⟨"X", ["kw"]⟩, [((1 : ℕ), (10 : ℚ))])]
        (retag_all [(⟨"X", ["kw"]⟩, [((1 : ℕ), (10 : ℚ))])] [⟨1, []⟩])
      = retag_all [(⟨"X", ["kw"]⟩, [((1 : ℕ), (10 : ℚ))])] [⟨1, []⟩] :=
  (retag_all_idempotent [(⟨"X", ["kw"]⟩, [(1, 10)])] [⟨1, []⟩]
    (by simp) (by simp)).1

/-! ## Demand tracker and notifier

Embeds `process_search_requests` of
`src/app/services/notification_service.py` (lines 16-32), identical in
substance to `src/services/notification_service.py`:
fetch every search request with `notified=false` (`get_pending`), and for
each one whose keyword now matches at least one course (the external text
query `count_documents > 0`, modelled as the predicate `sat`), push one
`{read: false, sent: false}` notification to the requesting user
(`update_one` on the first user with that `_id`) and mark the request
notified (`update_one` by `_id`).  Fresh notification `_id`s come from the
`next_nid` counter. -/

def get_pending (st : Store) : List SearchRequest :=
  st.requests.filter (fun r => decide (r.notified = false))

def mark_notified (rid : ℕ) : List SearchRequest → List SearchRequest
  | [] => []
  | r :: rs =>
    if r.rid = rid then { r with notified := true } :: rs
    else r :: mark_notified rid rs

def push_note (uid : ℕ) (note : NoteDoc) : List UserDoc → List UserDoc
  | [] => []
  | u :: us =>
    if u.uid = uid then { u with notifications := u.notifications ++ [note] } :: us
    else u :: push_note uid note us

def mk_note (nid : ℕ) (kw : String) : NoteDoc :=
  { nid := nid
    message := "New courses are now available for " ++ kw ++ "."
    read := false
    sent := false }

/-- Body of the loop over pending requests. -/
def notify_step (sat : String → Bool) (s : Store) (req : SearchRequest) :
    Store :=
  if sat req.keyword then
    { s with
      users := push_note req.user_id (mk_note s.next_nid req.keyword) s.users
      requests := mark_notified req.rid s.requests
      next_nid := s.next_nid + 1 }
  else s

def process_search_requests (sat : String → Bool) (st : Store) : Store :=
  (get_pending st).foldl (notify_step sat) st

/-! ### Lemmas about `process_search_requests` -/

theorem foldl_step_requests (sat : String → Bool) :
    ∀ (L : List SearchRequest) (st : Store),
      (L.foldl (notify_step sat) st).requests
        = L.foldl (fun reqs r =>
            if sat r.keyword then mark_notified r.rid reqs else reqs)
            st.requests
  | [], _ => rfl
  | r :: L, st => by
    rw [List.foldl_cons, List.foldl_cons,
      foldl_step_requests sat L (notify_step sat st r)]
    congr 1
    by_cases h : sat r.keyword <;> simp [notify_step, h]

theorem mark_notified_eq_map (rid : ℕ) :
    ∀ reqs : List SearchRequest,
      (reqs.map (fun r => r.rid)).Nodup →
      mark_notified rid reqs
        = reqs.map (fun r => if r.rid = rid then { r with notified := true } else r)
  | [], _ => rfl
  | r :: rs, h => by
    have htail : (rs.map (fun r => r.rid)).Nodup := (List.nodup_cons.mp h).2
    have hhead : r.rid ∉ rs.map (fun r => r.rid) := (List.nodup_cons.mp h).1
    by_cases hc : r.rid = rid
    · simp only [mark_notified, if_pos hc, List.map_cons]
      have hmap : rs.map (fun x => if x.rid = rid then { x with notified := true } else x)
          = rs.map (fun x => x) := by
        apply List.map_congr_left
        intro x hx
        have hxne : x.rid ≠ rid := by
          intro hxx
          apply hhead
          have hm : x.rid ∈ rs.map (fun r => r.rid) := List.mem_map_of_mem _ hx
          rw [hc, ← hxx]
          exact hm
        rw [if_neg hxne]
      rw [hmap, List.map_id']
    · simp only [mark_notified, if_neg hc, List.map_cons]
      rw [mark_notified_eq_map rid rs htail]

theorem foldl_mark_eq_map (sat : String → Bool) :
    ∀ (L : List SearchRequest) (reqs : List SearchRequest),
      (reqs.map (fun r => r.rid)).Nodup →
      L.foldl (fun reqs r =>
          if sat r.keyword then mark_notified r.rid reqs else reqs) reqs
        = reqs.map (fun q =>
            if q.rid ∈ (L.filter (fun r => sat r.keyword)).map (fun r => r.rid)
            then { q with notified := true } else q)
  | [], reqs, _ => by
    simp
  | r :: L, reqs, h => by
    rw [List.foldl_cons, List.filter_cons]
    by_cases hm : sat r.keyword
    · rw [if_pos hm, mark_notified_eq_map r.rid reqs h]
      have hids : ((reqs.map fun q =>
          if q.rid = r.rid then { q with notified := true } else q).map
            (fun q => q.rid)) = reqs.map (fun q => q.rid) := by
        rw [List.map_map]
        apply List.map_congr_left
        intro q _
        by_cases hq : q.rid = r.rid <;> simp [hq]
      rw [foldl_mark_eq_map sat L _ (by rw [hids]; exact h), List.map_map]
      simp only [if_pos hm]
      apply List.map_congr_left
      intro q _
      by_cases h1 : q.rid = r.rid
      · by_cases h2 : q.rid ∈ (L.filter (fun r => sat r.keyword)).map
            (fun r => r.rid) <;>
          simp [Function.comp, h1, h2]
      · by_cases h2 : q.rid ∈ (L.filter (fun r => sat r.keyword)).map
            (fun r => r.rid) <;>
          simp [Function.comp, h1, h2]
    · rw [if_neg hm, foldl_mark_eq_map sat L reqs h]
      simp only [hm]
      rfl

theorem process_requests_char (sat : String → Bool) (st : Store)
    (hr : (st.requests.map (fun r => r.rid)).Nodup) :
    (process_search_requests sat st).requests
      = st.requests.map (fun r =>
          if r.notified = false ∧ sat r.keyword = true
          then { r with notified := true } else r) := by
  unfold process_search_requests
  rw [foldl_step_requests, foldl_mark_eq_map sat _ _ hr]
  apply List.map_congr_left
  intro q hq
  by_cases hcond : q.notified = false ∧ sat q.keyword = true
  · rw [if_pos hcond, if_pos]
    apply List.mem_map.mpr
    refine ⟨q, ?_, rfl⟩
    apply List.mem_filter.mpr
    refine ⟨List.mem_filter.mpr ⟨hq, by simp [hcond.1]⟩, hcond.2⟩
  · rw [if_neg hcond, if_neg]
    intro hmem
    rcases List.mem_map.mp hmem with ⟨r2, hr2, hrid⟩
    have hr2f := List.mem_filter.mp hr2
    have hpend : r2 ∈ st.requests.filter (fun r => decide (r.notified = false)) :=
      hr2f.1
    have hr2p := List.mem_filter.mp hpend
    have heq : r2 = q :=
      List.inj_on_of_nodup_map hr hr2p.1 hq hrid
    apply hcond
    rw [← heq]
    constructor
    · simpa using hr2p.2
    · exact hr2f.2

theorem find?_push_note_eq (uid : ℕ) (note : NoteDoc) :
    ∀ us : List UserDoc,
      (push_note uid note us).find? (fun x => decide (x.uid = uid))
        = (us.find? (fun x => decide (x.uid = uid))).map
            (fun u => { u with notifications := u.notifications ++ [note] })
  | [] => rfl
  | u :: us => by
    by_cases h : u.uid = uid
    · rw [push_note, if_pos h,
        List.find?_cons_of_pos _ (by simp [h]),
        List.find?_cons_of_pos _ (by simp [h])]
      rfl
    · rw [push_note, if_neg h,
        List.find?_cons_of_neg _ (by simp [h]),
        List.find?_cons_of_neg _ (by simp [h])]
      exact find?_push_note_eq uid note us

theorem find?_push_note_ne (uid uid2 : ℕ) (note : NoteDoc) (hne : uid2 ≠ uid) :
    ∀ us : List UserDoc,
      (push_note uid2 note us).find? (fun x => decide (x.uid = uid))
        = us.find? (fun x => decide (x.uid = uid))
  | [] => rfl
  | u :: us => by
    by_cases h2 : u.uid = uid2
    · have hu : ¬(u.uid = uid) := by
        rw [h2]
        exact hne
      rw [push_note, if_pos h2,
        List.find?_cons_of_neg _ (by simp [hu]),
        List.find?_cons_of_neg _ (by simp [hu])]
    · rw [push_note, if_neg h2]
      by_cases h3 : u.uid = uid
      · rw [List.find?_cons_of_pos _ (by simp [h3]),
          List.find?_cons_of_pos _ (by simp [h3])]
      · rw [List.find?_cons_of_neg _ (by simp [h3]),
          List.find?_cons_of_neg _ (by simp [h3])]
        exact find?_push_note_ne uid uid2 note hne us

theorem foldl_step_users (sat : String → Bool) :
    ∀ (L : List SearchRequest) (st : Store) (uid : ℕ) (u : UserDoc),
      st.users.find? (fun x => decide (x.uid = uid)) = some u →
      ∃ L2 : List NoteDoc,
        (L.foldl (notify_step sat) st).users.find? (fun x => decide (x.uid = uid))
          = some { u with notifications := u.notifications ++ L2 }
        ∧ L2.length = (L.filter
            (fun r => sat r.keyword && decide (r.user_id = uid))).length
        ∧ ∀ nt ∈ L2, nt.sent = false ∧ nt.read = false
  | [], st, uid, u, hu => ⟨[], by rw [List.append_nil]; exact hu, by simp, by simp⟩
  | r :: L, st, uid, u, hu => by
    rw [List.foldl_cons, List.filter_cons]
    by_cases hm : sat r.keyword
    · by_cases huid : r.user_id = uid
      · have hu1 : (notify_step sat st r).users.find?
            (fun x => decide (x.uid = uid))
            = some { u with notifications
                := u.notifications ++ [mk_note st.next_nid r.keyword] } := by
          simp only [notify_step, if_pos hm]
          rw [huid, find?_push_note_eq, hu]
          rfl
        obtain ⟨L2, hL2, hlen, hflags⟩ :=
          foldl_step_users sat L (notify_step sat st r) uid _ hu1
        refine ⟨mk_note st.next_nid r.keyword :: L2, ?_, ?_, ?_⟩
        · rw [hL2]
          have hli : (u.notifications ++ [mk_note st.next_nid r.keyword]) ++ L2
              = u.notifications ++ (mk_note st.next_nid r.keyword :: L2) := by
            simp
          rw [hli]
        · simp [hm, huid, hlen]
        · intro nt hnt
          rcases List.mem_cons.mp hnt with rfl | hnt2
          · exact ⟨rfl, rfl⟩
          · exact hflags nt hnt2
      · have hu1 : (notify_step sat st r).users.find?
            (fun x => decide (x.uid = uid)) = some u := by
          simp only [notify_step, if_pos hm]
          rw [find?_push_note_ne uid r.user_id _ huid]
          exact hu
        obtain ⟨L2, hL2, hlen, hflags⟩ :=
          foldl_step_users sat L (notify_step sat st r) uid u hu1
        refine ⟨L2, hL2, ?_, hflags⟩
        simp [hm, huid, hlen]
    · have hstep : notify_step sat st r = st := by
        simp [notify_step, hm]
      rw [hstep]
      obtain ⟨L2, hL2, hlen, hflags⟩ := foldl_step_users sat L st uid u hu
      refine ⟨L2, hL2, ?_, hflags⟩
      simp [hm, hlen]

theorem foldl_step_no_match (sat : String → Bool) :
    ∀ (L : List SearchRequest) (st : Store),
      (∀ r ∈ L, sat r.keyword = false) →
      L.foldl (notify_step sat) st = st
  | [], _, _ => rfl
  | r :: L, st, h => by
    rw [List.foldl_cons]
    have hstep : notify_step sat st r = st := by
      simp [notify_step, h r (List.mem_cons_self _ _)]
    rw [hstep]
    exact foldl_step_no_match sat L st (fun x hx => h x (List.mem_cons_of_mem _ hx))

/-- C5: `process_search_requests` selects only records with
`notified = false`; it flips exactly those pending records whose keyword now
matches at least one course (predicate `sat`) to `notified = true`, leaving
every other record — in particular every already-notified record —
untouched; for each user it appends exactly one `sent = false` notification
per satisfied pending record of that user; and a pass is idempotent: once
no actionable pending record remains (in particular when every record is
notified) a further call changes nothing. -/
theorem process_search_requests_spec (sat : String → Bool) (st : Store)
    (hr : (st.requests.map (fun r => r.rid)).Nodup) :
    (process_search_requests sat st).requests
      = st.requests.map (fun r =>
          if r.notified = false ∧ sat r.keyword = true
          then { r with notified := true } else r)
    ∧ (∀ uid : ℕ, ∀ u : UserDoc,
        st.users.find? (fun x => decide (x.uid = uid)) = some u →
        ∃ L2 : List NoteDoc,
          (process_search_requests sat st).users.find?
              (fun x => decide (x.uid = uid))
            = some { u with notifications := u.notifications ++ L2 }
          ∧ L2.length = ((get_pending st).filter
              (fun r => sat r.keyword && decide (r.user_id = uid))).length
          ∧ ∀ nt ∈ L2, nt.sent = false ∧ nt.read = false)
    ∧ ((∀ r ∈ st.requests, r.notified = true) →
        process_search_requests sat st = st)
    ∧ process_search_requests sat (process_search_requests sat st)
        = process_search_requests sat st := by
  refine ⟨process_requests_char sat st hr, ?_, ?_, ?_⟩
  · intro uid u hu
    exact foldl_step_users sat (get_pending st) st uid u hu
  · intro hall
    have hpend : get_pending st = [] := by
      rw [get_pending, List.filter_eq_nil_iff]
      intro r hrr
      simp [hall r hrr]
    unfold process_search_requests
    rw [hpend]
    rfl
  · have hnomatch : ∀ r ∈ get_pending (process_search_requests sat st),
        sat r.keyword = false := by
      intro r hrp
      have h1 : r ∈ (process_search_requests sat st).requests :=
        (List.mem_filter.mp hrp).1
      have h2 : r.notified = false := by
        simpa using (List.mem_filter.mp hrp).2
      rw [process_requests_char sat st hr] at h1
      rcases List.mem_map.mp h1 with ⟨q, hq, rfl⟩
      by_cases hcond : q.notified = false ∧ sat q.keyword = true
      · rw [if_pos hcond] at h2
        simp at h2
      · rw [if_neg hcond] at h2 ⊢
        rcases Bool.eq_false_or_eq_true (sat q.keyword) with ht | hf
        · exact absurd ⟨h2, ht⟩ hcond
        · exact hf
    show (get_pending (process_search_requests sat st)).foldl
        (notify_step sat) (process_search_requests sat st)
      = process_search_requests sat st
    exact foldl_step_no_match sat _ _ hnomatch

/-- Witness for C5: a single satisfiable pending request is processed and a
second pass changes nothing. -/
theorem process_search_requests_spec_witness :
    process_search_requests (fun _ => true)
        (process_search_requests (fun _ => true)
          ⟨[], [⟨0, 5, "k", false⟩], [⟨5, []⟩], 0, 0⟩)
      = process_search_requests (fun _ => true)
          ⟨[], [⟨0, 5, "k", false⟩], [⟨5, []⟩], 0, 0⟩ :=
  (process_search_requests_spec (fun _ => true)
    ⟨[], [⟨0, 5, "k", false⟩], [⟨5, []⟩], 0, 0⟩ (by simp)).2.2.2
